import Mathlib

/-
Verification of the graph component in src/graph.js.

Modelling choices (shallow embedding):
- Vertex objects are identified by natural-number ids; identity-based
  JS Set membership becomes id equality.
- A JS Set of vertices is a duplicate-free, insertion-ordered list of ids:
  Set.add appends a missing element at the end, Set.delete filters it out,
  and iteration visits the list front to back (JS Sets iterate in
  insertion order).
- The mutable heap of Node objects is a GraphState: the graph's nodes set,
  plus each vertex object's adjacent set and value.  The functions adj and
  val are total on ids, so vertex objects that were never added to the
  graph still exist and carry adjacency, exactly as JS objects do.
- Vertex values are modelled as naturals (the payload is opaque in the
  source; the tests in the spec only use number values).
- Traversals take fuel (a bound on the number of nested dfs calls, resp.
  loop iterations) and return none when the fuel runs out; termination of
  the source program is the theorem that some fuel suffices.
- A possibly-null vertex argument is an Option id; code that reads a field
  of null is modelled as an error value.
-/

/-- JS Set.add on an insertion-ordered list: appends the element if absent. -/
def setAdd (s : List Nat) (x : Nat) : List Nat :=
  if x ∈ s then s else s ++ [x]

/-- JS Set.delete on an insertion-ordered list: removes the element. -/
def setDel (s : List Nat) (x : Nat) : List Nat :=
  s.filter (fun y => y ≠ x)

/-- The heap: the graph's nodes set together with every vertex object's
adjacent set and value field. -/
structure GraphState where
  nodes : List Nat
  adj : Nat → List Nat
  val : Nat → Nat

/-- Source: addVertex(vertex) adds the vertex to this.nodes. -/
def addVertex (g : GraphState) (v : Nat) : GraphState :=
  { g with nodes := setAdd g.nodes v }

/-- Source: addVertices(vertexArray) adds each vertex of the array. -/
def addVertices (g : GraphState) (vs : List Nat) : GraphState :=
  vs.foldl addVertex g

/-- Heap write a.adjacent.add(b). -/
def adjInsert (g : GraphState) (a b : Nat) : GraphState :=
  { g with adj := fun u => if u = a then setAdd (g.adj a) b else g.adj u }

/-- Heap write a.adjacent.delete(b). -/
def adjDelete (g : GraphState) (a b : Nat) : GraphState :=
  { g with adj := fun u => if u = a then setDel (g.adj a) b else g.adj u }

/-- Source: addEdge(v1, v2) returns unless both endpoints are in this.nodes,
then runs v1.adjacent.add(v2); v2.adjacent.add(v1). -/
def addEdge (g : GraphState) (v1 v2 : Nat) : GraphState :=
  if v1 ∈ g.nodes ∧ v2 ∈ g.nodes then adjInsert (adjInsert g v1 v2) v2 v1 else g

/-- Source: removeEdge(v1, v2) returns unless both endpoints are in
this.nodes, then runs v1.adjacent.delete(v2); v2.adjacent.delete(v1). -/
def removeEdge (g : GraphState) (v1 v2 : Nat) : GraphState :=
  if v1 ∈ g.nodes ∧ v2 ∈ g.nodes then adjDelete (adjDelete g v1 v2) v2 v1 else g

/-- Source: removeVertex(vertex) returns if the vertex is not in this.nodes;
otherwise it iterates vertex.adjacent with for..of, calling
removeEdge(vertex, adjacentVertex) on each element, then deletes the vertex
from this.nodes.  The loop iterates the live set, but every deletion it
performs on that set removes exactly the element currently being visited
(removeEdge(vertex, a) deletes a from vertex.adjacent, and vertex from
a.adjacent, which is the same set only when a = vertex); under JS Set
iteration semantics the loop therefore visits exactly the elements of the
initial snapshot, in order, which is what the fold below iterates. -/
def removeVertex (g : GraphState) (v : Nat) : GraphState :=
  if v ∈ g.nodes then
    let g' := (g.adj v).foldl (fun h a => removeEdge h v a) g
    { g' with nodes := setDel g'.nodes v }
  else g

/-- The neighbor loop of dfs: vertex.adjacent.forEach, recursing (via rec)
into neighbors that are not yet in the visited set.  Generic in the state
type so that the heap-threading variant below can reuse it; visited
extracts the visited set from the state.  A none from rec (fuel exhaustion)
aborts the whole traversal. -/
def dfsList {σ : Type} (visited : σ → List Nat) (rec : Nat → σ → Option σ) :
    List Nat → σ → Option σ
  | [], s => some s
  | n :: ns, s =>
    if n ∈ visited s then dfsList visited rec ns s
    else
      match rec n s with
      | none => none
      | some s' => dfsList visited rec ns s'

/-- Source: the inner dfs closure of depthFirstSearch.  State is the pair
(visited set, result array).  dfs(vertex) adds the vertex to visited,
pushes its value on the result, and runs the neighbor loop.  Fuel bounds
the depth of nested dfs calls; the null guard of the closure is handled at
the top level, since set elements are never null. -/
def dfsVisit (g : GraphState) : Nat → Nat → List Nat × List Nat → Option (List Nat × List Nat)
  | 0, _, _ => none
  | fuel + 1, v, s =>
    dfsList Prod.fst (fun n t => dfsVisit g fuel n t) (g.adj v)
      (setAdd s.1 v, s.2 ++ [g.val v])

/-- Source: depthFirstSearch(start) with start possibly null.  The closure
guard if (!vertex) return makes dfs(null) record nothing, so the function
returns the empty result; a non-null start is visited with empty visited
set and empty result. -/
def depthFirstSearch (g : GraphState) (fuel : Nat) (start : Option Nat) :
    Option (List Nat) :=
  match start with
  | none => some []
  | some v => (dfsVisit g fuel v ([], [])).map Prod.snd

/-- Source: the vertex.adjacent.forEach body of breadthFirstSearch: each
neighbor not yet visited is marked visited and pushed on the queue. -/
def bfsEnqueue : List Nat → List Nat → List Nat → List Nat × List Nat
  | [], queue, visitedS => (queue, visitedS)
  | n :: ns, queue, visitedS =>
    if n ∈ visitedS then bfsEnqueue ns queue visitedS
    else bfsEnqueue ns (queue ++ [n]) (setAdd visitedS n)

/-- Source: the while (queue.length) loop of breadthFirstSearch: shift the
front vertex, push its value on the result, enqueue its unvisited
neighbors.  Fuel bounds the number of loop iterations. -/
def bfsLoop (g : GraphState) : Nat → List Nat → List Nat → List Nat → Option (List Nat)
  | _, [], _, result => some result
  | 0, _ :: _, _, _ => none
  | fuel + 1, v :: queue, visitedS, result =>
    let p := bfsEnqueue (g.adj v) queue visitedS
    bfsLoop g fuel p.1 p.2 (result ++ [g.val v])

/-- Source: breadthFirstSearch(start).  The queue starts as the array
containing start and visited starts as the set containing start; there is
no null guard, so when start is null the first loop iteration dequeues
null and reads null.value, which throws — modelled as Except.error.
Every later queue element comes from an adjacent set, hence is non-null. -/
def breadthFirstSearch (g : GraphState) (fuel : Nat) (start : Option Nat) :
    Except Unit (Option (List Nat)) :=
  match start with
  | none => Except.error ()
  | some v => Except.ok (bfsLoop g fuel [v] [v] [])

/-- The spec's symmetry invariant, restricted as the spec states it to
vertices that are members of the graph's nodes set. -/
def Symm (g : GraphState) : Prop :=
  ∀ u ∈ g.nodes, ∀ w ∈ g.nodes, (u ∈ g.adj w ↔ w ∈ g.adj u)

instance decidableSymm (g : GraphState) : Decidable (Symm g) :=
  inferInstanceAs (Decidable (∀ u ∈ g.nodes, ∀ w ∈ g.nodes, (u ∈ g.adj w ↔ w ∈ g.adj u)))

/-- Heap-wide symmetry: adjacency is symmetric for all vertex objects,
members of the graph or not. -/
def SymmAll (g : GraphState) : Prop :=
  ∀ u w : Nat, u ∈ g.adj w ↔ w ∈ g.adj u

/-- Reachability from a start vertex along the adjacency links of the heap. -/
inductive Reachable (g : GraphState) (s : Nat) : Nat → Prop
  | refl : Reachable g s s
  | step {u w : Nat} : Reachable g s u → w ∈ g.adj u → Reachable g s w

/-- Heap-threading variant of the inner dfs closure: the heap is carried
through every step of the traversal, read for adjacency and values, and
returned, exactly as the source method runs against the mutable object
graph.  Used to state that the traversal leaves the heap unchanged. -/
def dfsVisitS : Nat → Nat → GraphState × List Nat × List Nat →
    Option (GraphState × List Nat × List Nat)
  | 0, _, _ => none
  | fuel + 1, v, s =>
    dfsList (fun t => t.2.1) (fun n t => dfsVisitS fuel n t) (s.1.adj v)
      (s.1, setAdd s.2.1 v, s.2.2 ++ [s.1.val v])

/-- Heap-threading variant of depthFirstSearch, returning the final heap
together with the result array. -/
def depthFirstSearchS (g : GraphState) (fuel : Nat) (start : Option Nat) :
    Option (GraphState × List Nat) :=
  match start with
  | none => some (g, [])
  | some v => (dfsVisitS fuel v (g, [], [])).map (fun s => (s.1, s.2.2))

/-- Heap-threading variant of the breadthFirstSearch loop. -/
def bfsLoopS : Nat → GraphState × List Nat × List Nat × List Nat →
    Option (GraphState × List Nat)
  | _, (g, [], _, result) => some (g, result)
  | 0, (_, _ :: _, _, _) => none
  | fuel + 1, (g, v :: queue, visitedS, result) =>
    let p := bfsEnqueue (g.adj v) queue visitedS
    bfsLoopS fuel (g, p.1, p.2, result ++ [g.val v])

/-- Heap-threading variant of breadthFirstSearch. -/
def breadthFirstSearchS (g : GraphState) (fuel : Nat) (start : Option Nat) :
    Except Unit (Option (GraphState × List Nat)) :=
  match start with
  | none => Except.error ()
  | some v => Except.ok (bfsLoopS fuel (g, [v], [v], []))

-- Concrete graphs used by the tests below.

/-- The spec's chain example: vertices A, B, C with values 1, 2, 3 (ids
0, 1, 2), added in that order, edges A-B and B-C, built through the
Graph operations. -/
def gABC : GraphState :=
  addEdge (addEdge (addVertices ⟨[], fun _ => [], fun n => n + 1⟩ [0, 1, 2]) 0 1) 1 2

/-- An empty graph whose heap contains a free-standing vertex object with
id 0 and value 5 that was never added to the graph. -/
def gAbs : GraphState := ⟨[], fun _ => [], fun _ => 5⟩

/-- A two-vertex graph with a single edge between ids 0 and 1. -/
def gPair : GraphState :=
  ⟨[0, 1], fun u => if u = 0 then [1] else if u = 1 then [0] else [], fun _ => 0⟩

/-- A graph whose single member id 0 has no adjacency, while the heap also
holds a non-member vertex object id 1 constructed with an initial adjacent
set already containing vertex 0 (the Vertex constructor accepts an initial
adjacency set). -/
def gC1 : GraphState := ⟨[0], fun u => if u = 1 then [0] else [], fun _ => 0⟩

/-- A two-member graph with no edges and empty heap adjacency. -/
def gW0 : GraphState := ⟨[1, 2], fun _ => [], fun _ => 7⟩

-- Basic membership lemmas for the set model.

theorem mem_setAdd {s : List Nat} {x y : Nat} :
    x ∈ setAdd s y ↔ (x ∈ s ∨ x = y) := by
  unfold setAdd
  split
  · rename_i h
    constructor
    · exact Or.inl
    · rintro (hx | rfl) <;> assumption
  · simp [List.mem_append]

theorem mem_setDel {s : List Nat} {x y : Nat} :
    x ∈ setDel s y ↔ (x ∈ s ∧ x ≠ y) := by
  simp [setDel, List.mem_filter]

theorem setAdd_of_mem {s : List Nat} {x : Nat} (h : x ∈ s) : setAdd s x = s := by
  simp [setAdd, h]

theorem setAdd_of_not_mem {s : List Nat} {x : Nat} (h : x ∉ s) :
    setAdd s x = s ++ [x] := by
  simp [setAdd, h]

theorem mem_adjInsert {g : GraphState} {a b u x : Nat} :
    x ∈ (adjInsert g a b).adj u ↔ (x ∈ g.adj u ∨ (u = a ∧ x = b)) := by
  by_cases h : u = a
  · subst h
    simp [adjInsert, mem_setAdd]
  · simp [adjInsert, h]

theorem mem_adjDelete {g : GraphState} {a b u x : Nat} :
    x ∈ (adjDelete g a b).adj u ↔ (x ∈ g.adj u ∧ ¬(u = a ∧ x = b)) := by
  by_cases h : u = a
  · subst h
    simp [adjDelete, mem_setDel]
  · simp [adjDelete, h]

theorem adjInsert_nodes (g : GraphState) (a b : Nat) :
    (adjInsert g a b).nodes = g.nodes := rfl

theorem adjDelete_nodes (g : GraphState) (a b : Nat) :
    (adjDelete g a b).nodes = g.nodes := rfl

theorem addEdge_nodes (g : GraphState) (v1 v2 : Nat) :
    (addEdge g v1 v2).nodes = g.nodes := by
  unfold addEdge
  split <;> rfl

theorem removeEdge_nodes (g : GraphState) (v1 v2 : Nat) :
    (removeEdge g v1 v2).nodes = g.nodes := by
  unfold removeEdge
  split <;> rfl

theorem mem_addEdge {g : GraphState} {v1 v2 : Nat}
    (h1 : v1 ∈ g.nodes) (h2 : v2 ∈ g.nodes) {u x : Nat} :
    x ∈ (addEdge g v1 v2).adj u ↔
      (x ∈ g.adj u ∨ (u = v1 ∧ x = v2) ∨ (u = v2 ∧ x = v1)) := by
  unfold addEdge
  rw [if_pos ⟨h1, h2⟩]
  simp [mem_adjInsert]
  tauto

theorem mem_removeEdge {g : GraphState} {v1 v2 : Nat}
    (h1 : v1 ∈ g.nodes) (h2 : v2 ∈ g.nodes) {u x : Nat} :
    x ∈ (removeEdge g v1 v2).adj u ↔
      (x ∈ g.adj u ∧ ¬(u = v1 ∧ x = v2) ∧ ¬(u = v2 ∧ x = v1)) := by
  unfold removeEdge
  rw [if_pos ⟨h1, h2⟩]
  simp [mem_adjDelete]
  tauto

theorem mem_removeEdge_mono {g : GraphState} {v1 v2 u x : Nat}
    (h : x ∈ (removeEdge g v1 v2).adj u) : x ∈ g.adj u := by
  unfold removeEdge at h
  split at h
  · rw [mem_adjDelete] at h
    rw [mem_adjDelete] at h
    exact h.1.1
  · exact h

-- Lemmas about the removeEdge fold performed by removeVertex.

theorem removeEdgeFold_nodes (v : Nat) (l : List Nat) (g : GraphState) :
    (l.foldl (fun h a => removeEdge h v a) g).nodes = g.nodes := by
  induction l generalizing g with
  | nil => rfl
  | cons a l ih =>
    simp only [List.foldl_cons]
    rw [ih, removeEdge_nodes]

theorem removeEdgeFold_mono (v : Nat) (l : List Nat) (g : GraphState) {u x : Nat}
    (h : x ∈ (l.foldl (fun h a => removeEdge h v a) g).adj u) : x ∈ g.adj u := by
  induction l generalizing g with
  | nil => exact h
  | cons a l ih =>
    simp only [List.foldl_cons] at h
    exact mem_removeEdge_mono (ih (removeEdge g v a) h)

theorem removeEdgeFold_removed (v : Nat) :
    ∀ (l : List Nat) (g : GraphState), v ∈ g.nodes →
      ∀ a, a ∈ l → a ∈ g.nodes →
        v ∉ (l.foldl (fun h b => removeEdge h v b) g).adj a := by
  intro l
  induction l with
  | nil =>
    intro g _ a ha
    cases ha
  | cons b l ih =>
    intro g hv a ha han
    simp only [List.foldl_cons]
    rcases List.mem_cons.mp ha with rfl | ha'
    · intro hmem
      have hstep : v ∈ (removeEdge g v a).adj a :=
        removeEdgeFold_mono v l (removeEdge g v a) hmem
      rw [mem_removeEdge hv han] at hstep
      exact hstep.2.2 ⟨rfl, rfl⟩
    · exact ih (removeEdge g v b) (by rw [removeEdge_nodes]; exact hv) a ha'
        (by rw [removeEdge_nodes]; exact han)

theorem removeEdgeFold_other (v : Nat) :
    ∀ (l : List Nat) (g : GraphState) (u x : Nat), u ≠ v → x ≠ v →
      (x ∈ (l.foldl (fun h b => removeEdge h v b) g).adj u ↔ x ∈ g.adj u) := by
  intro l
  induction l with
  | nil =>
    intro g u x _ _
    exact Iff.rfl
  | cons b l ih =>
    intro g u x hu hx
    simp only [List.foldl_cons]
    rw [ih (removeEdge g v b) u x hu hx]
    unfold removeEdge
    split
    · rename_i hg
      rw [mem_adjDelete, mem_adjDelete]
      constructor
      · intro h
        exact h.1.1
      · intro h
        refine ⟨⟨h, ?_⟩, ?_⟩
        · rintro ⟨rfl, rfl⟩
          exact hu rfl
        · rintro ⟨rfl, rfl⟩
          exact hx rfl
    · exact Iff.rfl

theorem removeVertex_adj (g : GraphState) (v : Nat) (hv : v ∈ g.nodes) :
    (removeVertex g v).adj = ((g.adj v).foldl (fun h a => removeEdge h v a) g).adj := by
  simp only [removeVertex, if_pos hv]

theorem removeVertex_nodes (g : GraphState) (v : Nat) (hv : v ∈ g.nodes) :
    (removeVertex g v).nodes = setDel g.nodes v := by
  simp only [removeVertex, if_pos hv]
  rw [removeEdgeFold_nodes]

-- Preservation of the symmetry invariant by each mutating operation.

theorem symm_addEdge {g : GraphState} (v1 v2 : Nat) (hS : Symm g) :
    Symm (addEdge g v1 v2) := by
  by_cases hg : v1 ∈ g.nodes ∧ v2 ∈ g.nodes
  · intro u hu w hw
    rw [addEdge_nodes] at hu hw
    rw [mem_addEdge hg.1 hg.2, mem_addEdge hg.1 hg.2]
    have := hS u hu w hw
    tauto
  · unfold addEdge
    rw [if_neg hg]
    exact hS

theorem symm_removeEdge {g : GraphState} (v1 v2 : Nat) (hS : Symm g) :
    Symm (removeEdge g v1 v2) := by
  by_cases hg : v1 ∈ g.nodes ∧ v2 ∈ g.nodes
  · intro u hu w hw
    rw [removeEdge_nodes] at hu hw
    rw [mem_removeEdge hg.1 hg.2, mem_removeEdge hg.1 hg.2]
    have := hS u hu w hw
    tauto
  · unfold removeEdge
    rw [if_neg hg]
    exact hS

theorem symm_removeVertex {g : GraphState} (v : Nat) (hS : Symm g) :
    Symm (removeVertex g v) := by
  by_cases hv : v ∈ g.nodes
  · intro u hu w hw
    rw [removeVertex_nodes g v hv, mem_setDel] at hu hw
    rw [removeVertex_adj g v hv]
    rw [removeEdgeFold_other v (g.adj v) g w u hw.2 hu.2,
        removeEdgeFold_other v (g.adj v) g u w hu.2 hw.2]
    exact hS u hu.1 w hw.1
  · unfold removeVertex
    rw [if_neg hv]
    exact hS

theorem addVertex_adj (g : GraphState) (x : Nat) : (addVertex g x).adj = g.adj := rfl

theorem addVertices_adj (g : GraphState) (l : List Nat) :
    (addVertices g l).adj = g.adj := by
  induction l generalizing g with
  | nil => rfl
  | cons a l ih => exact ih (addVertex g a)

theorem symm_of_symmAll {g : GraphState} (h : SymmAll g) : Symm g :=
  fun u _ w _ => h u w

theorem symm_addVertex {g : GraphState} (x : Nat) (hS : SymmAll g) :
    Symm (addVertex g x) := by
  intro u _ w _
  rw [addVertex_adj]
  exact hS u w

theorem symm_addVertices {g : GraphState} (l : List Nat) (hS : SymmAll g) :
    Symm (addVertices g l) := by
  intro u _ w _
  rw [addVertices_adj]
  exact hS u w

/-- C1 counterexample: the member-restricted symmetry invariant is not
preserved by addVertex.  In gC1 the only member is vertex 0, so the
invariant holds, but the heap also holds the never-added vertex 1, built
with an initial adjacent set containing 0 while 0's adjacent set is empty.
addVertex(1) makes both vertices members, and then 0 is in 1's adjacent
set but 1 is not in 0's. -/
theorem addVertex_symmetry_counterexample :
    Symm gC1 ∧ ¬ Symm (addVertex gC1 1) := by
  constructor
  · decide
  · intro h
    have h01 : (0 : Nat) ∈ (addVertex gC1 1).adj 1 := by decide
    have h10 : (1 : Nat) ∉ (addVertex gC1 1).adj 0 := by decide
    have hm0 : (0 : Nat) ∈ (addVertex gC1 1).nodes := by decide
    have hm1 : (1 : Nat) ∈ (addVertex gC1 1).nodes := by decide
    exact h10 ((h 0 hm0 1 hm1).mp h01)

/-- C1 (amended): addEdge, removeEdge and removeVertex preserve the
member-restricted symmetry invariant; addVertex and addVertices preserve
it under the additional assumption that adjacency is symmetric for all
vertex objects on the heap (which fails when the vertex being added was
constructed with a one-sided initial adjacent set, as the counterexample
shows). -/
theorem symmetry_invariant_preservation :
    (∀ (g : GraphState) (v1 v2 : Nat), Symm g → Symm (addEdge g v1 v2)) ∧
    (∀ (g : GraphState) (v1 v2 : Nat), Symm g → Symm (removeEdge g v1 v2)) ∧
    (∀ (g : GraphState) (v : Nat), Symm g → Symm (removeVertex g v)) ∧
    (∀ (g : GraphState) (x : Nat), SymmAll g → Symm (addVertex g x)) ∧
    (∀ (g : GraphState) (l : List Nat), SymmAll g → Symm (addVertices g l)) :=
  ⟨fun _ v1 v2 hS => symm_addEdge v1 v2 hS,
   fun _ v1 v2 hS => symm_removeEdge v1 v2 hS,
   fun _ v hS => symm_removeVertex v hS,
   fun _ x hS => symm_addVertex x hS,
   fun _ l hS => symm_addVertices l hS⟩

theorem gW0_symmAll : SymmAll gW0 :=
  fun u w => iff_of_false (List.not_mem_nil u) (List.not_mem_nil w)

/-- Witness for C1 at concrete inputs. -/
theorem symmetry_invariant_preservation_witness :
    Symm (addEdge gPair 0 1) ∧ Symm (removeEdge gPair 0 1) ∧
    Symm (removeVertex gPair 0) ∧ Symm (addVertex gW0 3) ∧
    Symm (addVertices gW0 [3, 4]) :=
  ⟨symmetry_invariant_preservation.1 gPair 0 1 (by decide),
   symmetry_invariant_preservation.2.1 gPair 0 1 (by decide),
   symmetry_invariant_preservation.2.2.1 gPair 0 (by decide),
   symmetry_invariant_preservation.2.2.2.1 gW0 3 gW0_symmAll,
   symmetry_invariant_preservation.2.2.2.2 gW0 [3, 4] gW0_symmAll⟩

/-- C5: addEdge, removeEdge and removeVertex called with an argument
vertex that is not a member of the nodes set leave the whole graph state
unchanged; being total functions into GraphState they signal no error. -/
theorem absent_vertex_noop :
    (∀ (g : GraphState) (v1 v2 : Nat), v1 ∉ g.nodes ∨ v2 ∉ g.nodes →
      addEdge g v1 v2 = g) ∧
    (∀ (g : GraphState) (v1 v2 : Nat), v1 ∉ g.nodes ∨ v2 ∉ g.nodes →
      removeEdge g v1 v2 = g) ∧
    (∀ (g : GraphState) (v : Nat), v ∉ g.nodes → removeVertex g v = g) := by
  refine ⟨fun g v1 v2 h => ?_, fun g v1 v2 h => ?_, fun g v h => ?_⟩
  · unfold addEdge
    rw [if_neg (by tauto)]
  · unfold removeEdge
    rw [if_neg (by tauto)]
  · unfold removeVertex
    rw [if_neg h]

/-- Witness for C5 at concrete inputs. -/
theorem absent_vertex_noop_witness :
    addEdge gPair 5 0 = gPair ∧ removeEdge gPair 5 0 = gPair ∧
    removeVertex gPair 5 = gPair :=
  ⟨absent_vertex_noop.1 gPair 5 0 (Or.inl (by decide)),
   absent_vertex_noop.2.1 gPair 5 0 (Or.inl (by decide)),
   absent_vertex_noop.2.2 gPair 5 (by decide)⟩

/-- C7: on the chain graph A(1) - B(2) - C(3) built through the Graph
operations, both traversals started at A return the value sequence
1, 2, 3 (adjacent sets iterate in insertion order). -/
theorem chain_traversal_values :
    depthFirstSearch gABC 10 (some 0) = some [1, 2, 3] ∧
    breadthFirstSearch gABC 10 (some 0) = Except.ok (some [1, 2, 3]) := by
  constructor <;> rfl

/-- C9: for a member vertex, addEdge(v, v) puts v into its own adjacent
set, and removeVertex on the resulting graph removes v from the nodes set
and removes the self-referential adjacency entry (and, being a total
function, completes without error). -/
theorem self_edge_add_remove (g : GraphState) (v : Nat) (hv : v ∈ g.nodes) :
    v ∈ (addEdge g v v).adj v ∧
    v ∉ (removeVertex (addEdge g v v) v).nodes ∧
    v ∉ (removeVertex (addEdge g v v) v).adj v := by
  have h1 : v ∈ (addEdge g v v).adj v := by
    rw [mem_addEdge hv hv]
    exact Or.inr (Or.inl ⟨rfl, rfl⟩)
  have hv1 : v ∈ (addEdge g v v).nodes := by
    rw [addEdge_nodes]
    exact hv
  refine ⟨h1, ?_, ?_⟩
  · rw [removeVertex_nodes _ v hv1, mem_setDel]
    tauto
  · rw [removeVertex_adj _ v hv1]
    exact removeEdgeFold_removed v ((addEdge g v v).adj v) (addEdge g v v) hv1 v h1 hv1

/-- Witness for C9 at a concrete input. -/
theorem self_edge_add_remove_witness :
    0 ∈ (addEdge gPair 0 0).adj 0 ∧
    0 ∉ (removeVertex (addEdge gPair 0 0) 0).nodes ∧
    0 ∉ (removeVertex (addEdge gPair 0 0) 0).adj 0 :=
  self_edge_add_remove gPair 0 (by decide)

/-- C2: removing a member vertex v whose neighbors are all members, in a
heap where every adjacency reference to v is matched by a reference from
v (the symmetry invariant at v), removes v from the nodes set and from
every vertex object's adjacent set: no dangling references remain, and in
particular no neighbor of v is skipped by the removal loop. -/
theorem removeVertex_no_dangling (g : GraphState) (v : Nat)
    (hv : v ∈ g.nodes)
    (hcl : ∀ u ∈ g.adj v, u ∈ g.nodes)
    (hsym : ∀ u : Nat, v ∈ g.adj u → u ∈ g.adj v) :
    v ∉ (removeVertex g v).nodes ∧ ∀ u : Nat, v ∉ (removeVertex g v).adj u := by
  constructor
  · rw [removeVertex_nodes g v hv, mem_setDel]
    tauto
  · intro u hmem
    rw [removeVertex_adj g v hv] at hmem
    have hu : v ∈ g.adj u := removeEdgeFold_mono v (g.adj v) g hmem
    have huv : u ∈ g.adj v := hsym u hu
    exact removeEdgeFold_removed v (g.adj v) g hv u huv (hcl u huv) hmem

/-- Witness for C2 at a concrete input. -/
theorem removeVertex_no_dangling_witness :
    0 ∉ (removeVertex gPair 0).nodes ∧ ∀ u : Nat, 0 ∉ (removeVertex gPair 0).adj u :=
  removeVertex_no_dangling gPair 0 (by decide) (by decide)
    (fun u hu => by
      by_cases h0 : u = 0
      · subst h0
        simp [gPair] at hu
      · by_cases h1 : u = 1
        · subst h1
          simp [gPair]
        · simp [gPair, h0, h1] at hu)

-- Result lists only grow during the traversals.

theorem dfsList_result_mono {σ : Type} (visited : σ → List Nat)
    (rec : Nat → σ → Option σ) (res : σ → List Nat)
    (hrec : ∀ n s s', rec n s = some s' → ∃ t, res s' = res s ++ t) :
    ∀ (l : List Nat) (s s' : σ), dfsList visited rec l s = some s' →
      ∃ t, res s' = res s ++ t := by
  intro l
  induction l with
  | nil =>
    intro s s' h
    cases h
    exact ⟨[], by simp⟩
  | cons n ns ih =>
    intro s s' h
    simp only [dfsList] at h
    split at h
    · exact ih s s' h
    · cases hrec' : rec n s with
      | none => rw [hrec'] at h; cases h
      | some s1 =>
        rw [hrec'] at h
        obtain ⟨t1, ht1⟩ := hrec n s s1 hrec'
        obtain ⟨t2, ht2⟩ := ih s1 s' h
        exact ⟨t1 ++ t2, by rw [ht2, ht1, List.append_assoc]⟩

theorem dfsVisit_result_mono (g : GraphState) :
    ∀ (fuel : Nat) (v : Nat) (s s' : List Nat × List Nat),
      dfsVisit g fuel v s = some s' → ∃ t, s'.2 = s.2 ++ t := by
  intro fuel
  induction fuel with
  | zero =>
    intro v s s' h
    cases h
  | succ fuel ih =>
    intro v s s' h
    simp only [dfsVisit] at h
    obtain ⟨t, ht⟩ := dfsList_result_mono Prod.fst _ Prod.snd ih (g.adj v) _ s' h
    exact ⟨g.val v :: t, by rw [ht]; simp⟩

theorem bfsLoop_result_mono (g : GraphState) :
    ∀ (fuel : Nat) (q vis res r : List Nat),
      bfsLoop g fuel q vis res = some r → ∃ t, r = res ++ t := by
  intro fuel
  induction fuel with
  | zero =>
    intro q vis res r h
    cases q with
    | nil =>
      cases h
      exact ⟨[], by simp⟩
    | cons v q => cases h
  | succ fuel ih =>
    intro q vis res r h
    cases q with
    | nil =>
      cases h
      exact ⟨[], by simp⟩
    | cons v q =>
      simp only [bfsLoop] at h
      obtain ⟨t, ht⟩ := ih _ _ _ r h
      exact ⟨g.val v :: t, by rw [ht]; simp⟩

/-- C3 counterexample: the heap of gAbs holds a vertex object id 0 with
value 5 that is not a member of the (empty) nodes set, yet
depthFirstSearch started at it returns the sequence 5, not the empty
sequence: the dfs closure checks its argument against null only, never
against membership in nodes. -/
theorem dfs_absent_start_counterexample :
    (0 ∉ gAbs.nodes) ∧ depthFirstSearch gAbs 1 (some 0) = some [5] ∧
      depthFirstSearch gAbs 1 (some 0) ≠ some [] := by
  refine ⟨by decide, by decide, by decide⟩

/-- C3 (amended): depthFirstSearch(null) returns the empty sequence,
guarded by the null check before any value is recorded; but a non-null
start is traversed whether or not it is a member of nodes, its value
being recorded first, so an absent non-null start yields a non-empty
sequence. -/
theorem dfs_null_guard (g : GraphState) (fuel : Nat) :
    depthFirstSearch g fuel none = some [] ∧
    ∀ (v : Nat) (r : List Nat), depthFirstSearch g (fuel + 1) (some v) = some r →
      ∃ t, r = g.val v :: t := by
  constructor
  · rfl
  · intro v r h
    simp only [depthFirstSearch, Option.map_eq_some'] at h
    obtain ⟨p, hp, hr⟩ := h
    simp only [dfsVisit] at hp
    obtain ⟨t, ht⟩ := dfsList_result_mono Prod.fst _ Prod.snd
      (dfsVisit_result_mono g fuel) (g.adj v) _ p hp
    exact ⟨t, by rw [← hr, ht]; simp⟩

/-- Witness for C3 at concrete inputs. -/
theorem dfs_null_guard_witness :
    depthFirstSearch gAbs 1 none = some [] ∧ ∃ t, [5] = gAbs.val 0 :: t :=
  ⟨(dfs_null_guard gAbs 1).1, (dfs_null_guard gAbs 0).2 0 [5] (by decide)⟩

/-- C4 counterexample: started at the non-null vertex object id 0 (value
5), absent from the nodes set of gAbs, breadthFirstSearch reaches no
erroneous state: it terminates normally with the non-empty sequence 5. -/
theorem bfs_absent_start_counterexample :
    (0 ∉ gAbs.nodes) ∧
      breadthFirstSearch gAbs 2 (some 0) = Except.ok (some [5]) := by
  refine ⟨by decide, rfl⟩

/-- C4 (amended): breadthFirstSearch performs no null check on start: for
a null start the first loop iteration dequeues null and reads its value
field, an erroneous state, unlike depthFirstSearch which guards null; a
non-null start absent from nodes is not an error: it is traversed
normally, its value recorded first, yielding a non-empty sequence. -/
theorem bfs_no_null_check (g : GraphState) (fuel : Nat) :
    breadthFirstSearch g fuel none = Except.error () ∧
    ∀ (v : Nat) (r : List Nat),
      breadthFirstSearch g (fuel + 1) (some v) = Except.ok (some r) →
        ∃ t, r = g.val v :: t := by
  constructor
  · rfl
  · intro v r h
    simp only [breadthFirstSearch, Except.ok.injEq] at h
    simp only [bfsLoop] at h
    obtain ⟨t, ht⟩ := bfsLoop_result_mono g fuel _ _ _ r h
    exact ⟨t, by rw [ht]; simp⟩

/-- Witness for C4 at concrete inputs. -/
theorem bfs_no_null_check_witness :
    breadthFirstSearch gAbs 1 none = Except.error () ∧
      ∃ t, [5] = gAbs.val 0 :: t :=
  ⟨(bfs_no_null_check gAbs 1).1, (bfs_no_null_check gAbs 1).2 0 [5] rfl⟩

-- Reachability: traversal results only contain values of reachable vertices.

theorem reachable_trans {g : GraphState} {a b c : Nat}
    (h1 : Reachable g a b) (h2 : Reachable g b c) : Reachable g a c := by
  induction h2 with
  | refl => exact h1
  | step _ hmem ih => exact Reachable.step ih hmem

theorem dfsList_reachable (g : GraphState) (v0 : Nat) (fuel : Nat)
    (ih : ∀ (v : Nat) (s s' : List Nat × List Nat),
      dfsVisit g fuel v s = some s' → Reachable g v0 v →
      (∀ x ∈ s.2, ∃ u, Reachable g v0 u ∧ x = g.val u) →
      ∀ x ∈ s'.2, ∃ u, Reachable g v0 u ∧ x = g.val u) :
    ∀ (l : List Nat) (s s' : List Nat × List Nat),
      dfsList Prod.fst (fun n t => dfsVisit g fuel n t) l s = some s' →
      (∀ n ∈ l, Reachable g v0 n) →
      (∀ x ∈ s.2, ∃ u, Reachable g v0 u ∧ x = g.val u) →
      ∀ x ∈ s'.2, ∃ u, Reachable g v0 u ∧ x = g.val u := by
  intro l
  induction l with
  | nil =>
    intro s s' h _ hgood
    cases h
    exact hgood
  | cons n ns ihl =>
    intro s s' h hl hgood
    simp only [dfsList] at h
    split at h
    · exact ihl s s' h (fun m hm => hl m (List.mem_cons_of_mem n hm)) hgood
    · cases h1 : dfsVisit g fuel n s with
      | none => rw [h1] at h; cases h
      | some s1 =>
        rw [h1] at h
        exact ihl s1 s' h (fun m hm => hl m (List.mem_cons_of_mem n hm))
          (ih n s s1 h1 (hl n (List.mem_cons_self n ns)) hgood)

theorem dfsVisit_reachable (g : GraphState) (v0 : Nat) :
    ∀ (fuel : Nat) (v : Nat) (s s' : List Nat × List Nat),
      dfsVisit g fuel v s = some s' →
      Reachable g v0 v →
      (∀ x ∈ s.2, ∃ u, Reachable g v0 u ∧ x = g.val u) →
      ∀ x ∈ s'.2, ∃ u, Reachable g v0 u ∧ x = g.val u := by
  intro fuel
  induction fuel with
  | zero =>
    intro v s s' h
    cases h
  | succ fuel ih =>
    intro v s s' h hr hgood
    simp only [dfsVisit] at h
    refine dfsList_reachable g v0 fuel ih (g.adj v) _ s' h
      (fun n hn => Reachable.step hr hn) ?_
    intro x hx
    rcases List.mem_append.mp hx with hx' | hx'
    · exact hgood x hx'
    · exact ⟨v, hr, by simpa using hx'⟩

theorem bfsEnqueue_queue_sub :
    ∀ (ns q vis : List Nat) (x : Nat),
      x ∈ (bfsEnqueue ns q vis).1 → x ∈ q ∨ x ∈ ns := by
  intro ns
  induction ns with
  | nil =>
    intro q vis x h
    exact Or.inl h
  | cons n ns ih =>
    intro q vis x h
    simp only [bfsEnqueue] at h
    split at h
    · rcases ih q vis x h with h' | h'
      · exact Or.inl h'
      · exact Or.inr (List.mem_cons_of_mem n h')
    · rcases ih (q ++ [n]) (setAdd vis n) x h with h' | h'
      · rcases List.mem_append.mp h' with h'' | h''
        · exact Or.inl h''
        · exact Or.inr (by rw [List.mem_singleton.mp h'']; exact List.mem_cons_self n ns)
      · exact Or.inr (List.mem_cons_of_mem n h')

theorem bfsLoop_reachable (g : GraphState) (v0 : Nat) :
    ∀ (fuel : Nat) (q vis res r : List Nat),
      bfsLoop g fuel q vis res = some r →
      (∀ n ∈ q, Reachable g v0 n) →
      (∀ x ∈ res, ∃ u, Reachable g v0 u ∧ x = g.val u) →
      ∀ x ∈ r, ∃ u, Reachable g v0 u ∧ x = g.val u := by
  intro fuel
  induction fuel with
  | zero =>
    intro q vis res r h hq hgood
    cases q with
    | nil =>
      cases h
      exact hgood
    | cons v q' => cases h
  | succ fuel ih =>
    intro q vis res r h hq hgood
    cases q with
    | nil =>
      cases h
      exact hgood
    | cons v q' =>
      simp only [bfsLoop] at h
      refine ih _ _ _ r h ?_ ?_
      · intro n hn
        rcases bfsEnqueue_queue_sub (g.adj v) q' vis n hn with h' | h'
        · exact hq n (List.mem_cons_of_mem v h')
        · exact Reachable.step (hq v (List.mem_cons_self v q')) h'
      · intro x hx
        rcases List.mem_append.mp hx with hx' | hx'
        · exact hgood x hx'
        · exact ⟨v, hq v (List.mem_cons_self v q'), by simpa using hx'⟩

/-- C6: the sequences returned by both traversals contain only values of
vertices reachable from the start vertex along adjacency links; the value
recorded for any result entry comes from some reachable vertex, so an
unreachable vertex is never visited. -/
theorem traversals_only_reachable :
    (∀ (g : GraphState) (fuel v : Nat) (r : List Nat),
      depthFirstSearch g fuel (some v) = some r →
      ∀ x ∈ r, ∃ u, Reachable g v u ∧ x = g.val u) ∧
    (∀ (g : GraphState) (fuel v : Nat) (r : List Nat),
      breadthFirstSearch g fuel (some v) = Except.ok (some r) →
      ∀ x ∈ r, ∃ u, Reachable g v u ∧ x = g.val u) := by
  constructor
  · intro g fuel v r h x hx
    simp only [depthFirstSearch, Option.map_eq_some'] at h
    obtain ⟨p, hp, hr⟩ := h
    exact dfsVisit_reachable g v fuel v ([], []) p hp Reachable.refl
      (by intro y hy; cases hy) x (by rw [hr]; exact hx)
  · intro g fuel v r h x hx
    simp only [breadthFirstSearch, Except.ok.injEq] at h
    refine bfsLoop_reachable g v fuel [v] [v] [] r h ?_ (by intro y hy; cases hy) x hx
    intro n hn
    rw [List.mem_singleton.mp hn]
    exact Reachable.refl

/-- Witness for C6 at concrete inputs. -/
theorem traversals_only_reachable_witness :
    (∀ x ∈ [1, 2, 3], ∃ u, Reachable gABC 0 u ∧ x = gABC.val u) ∧
    (∀ x ∈ [1, 2, 3], ∃ u, Reachable gABC 0 u ∧ x = gABC.val u) :=
  ⟨traversals_only_reachable.1 gABC 10 0 [1, 2, 3] rfl,
   traversals_only_reachable.2 gABC 10 0 [1, 2, 3] rfl⟩

-- Counting unvisited vertices of a finite universe: the fuel measure.

theorem unvisited_mono (U : List Nat) :
    ∀ vis vis' : List Nat, (∀ x ∈ vis, x ∈ vis') →
      (U.filter (fun x => x ∉ vis')).length ≤ (U.filter (fun x => x ∉ vis)).length := by
  intro vis vis' hsub
  induction U with
  | nil => simp
  | cons a U ih =>
    simp only [List.filter_cons]
    by_cases h' : a ∈ vis'
    · by_cases h : a ∈ vis
      · simpa [h, h'] using ih
      · simp [h, h']
        have ih' := ih
        simp only [decide_not] at ih'
        exact Nat.le_succ_of_le ih'
    · have h : a ∉ vis := fun hc => h' (hsub a hc)
      simpa [h, h'] using ih

theorem filter_length_mono (p q : Nat → Bool) (hpq : ∀ x, q x = true → p x = true) :
    ∀ U : List Nat, (U.filter q).length ≤ (U.filter p).length := by
  intro U
  induction U with
  | nil => simp
  | cons a U ih =>
    simp only [List.filter_cons]
    cases hqa : q a
    · cases hpa : p a
      · simpa using ih
      · simp only [List.length_cons]
        exact Nat.le_succ_of_le ih
    · rw [hpq a hqa]
      simpa using ih

theorem filter_length_strict (p q : Nat → Bool) (hpq : ∀ x, q x = true → p x = true) :
    ∀ (U : List Nat) (v : Nat), v ∈ U → p v = true → q v = false →
      (U.filter q).length + 1 ≤ (U.filter p).length := by
  intro U
  induction U with
  | nil =>
    intro v hv
    cases hv
  | cons a U ih =>
    intro v hv hp hq
    simp only [List.filter_cons]
    rcases List.mem_cons.mp hv with rfl | hv'
    · rw [hp, hq]
      simp only [List.length_cons]
      exact Nat.succ_le_succ (filter_length_mono p q hpq U)
    · cases hqa : q a
      · cases hpa : p a
        · simpa using ih v hv' hp hq
        · simp only [List.length_cons]
          exact Nat.le_succ_of_le (ih v hv' hp hq)
      · rw [hpq a hqa]
        simp only [List.length_cons]
        exact Nat.succ_le_succ (ih v hv' hp hq)

theorem unvisited_strict (U vis vis' : List Nat) (v : Nat)
    (hs : ∀ x ∈ vis, x ∈ vis') (hv' : v ∈ vis') (hvU : v ∈ U) (hnv : v ∉ vis) :
    (U.filter (fun x => x ∉ vis')).length + 1 ≤
      (U.filter (fun x => x ∉ vis)).length := by
  refine filter_length_strict _ _ ?_ U v hvU (by simpa using hnv) (by simpa using hv')
  intro x hx
  simp only [decide_eq_true_eq] at hx ⊢
  exact fun hc => hx (hs x hc)

theorem dfsList_enough (g : GraphState) (U : List Nat) (fuel : Nat)
    (ih : ∀ (v : Nat) (s : List Nat × List Nat), v ∈ U → v ∉ s.1 →
      (U.filter (fun x => x ∉ s.1)).length ≤ fuel →
      ∃ s', dfsVisit g fuel v s = some s' ∧ (∀ x ∈ s.1, x ∈ s'.1) ∧
        (∀ x ∈ s'.1, x ∈ s.1 ∨ x ∈ U)) :
    ∀ (l : List Nat) (s : List Nat × List Nat),
      (∀ n ∈ l, n ∈ U) →
      (U.filter (fun x => x ∉ s.1)).length ≤ fuel →
      ∃ s', dfsList Prod.fst (fun n t => dfsVisit g fuel n t) l s = some s' ∧
        (∀ x ∈ s.1, x ∈ s'.1) ∧ (∀ x ∈ s'.1, x ∈ s.1 ∨ x ∈ U) := by
  intro l
  induction l with
  | nil =>
    intro s _ _
    exact ⟨s, rfl, fun x hx => hx, fun x hx => Or.inl hx⟩
  | cons n ns ihl =>
    intro s hl hcount
    simp only [dfsList]
    by_cases hn : n ∈ s.1
    · rw [if_pos hn]
      exact ihl s (fun m hm => hl m (List.mem_cons_of_mem n hm)) hcount
    · rw [if_neg hn]
      obtain ⟨s1, hs1, hsub1, hnew1⟩ := ih n s (hl n (List.mem_cons_self n ns)) hn hcount
      rw [hs1]
      obtain ⟨s', hs', hsub2, hnew2⟩ := ihl s1
        (fun m hm => hl m (List.mem_cons_of_mem n hm))
        (le_trans (unvisited_mono U s.1 s1.1 hsub1) hcount)
      exact ⟨s', hs', fun x hx => hsub2 x (hsub1 x hx),
        fun x hx => (hnew2 x hx).elim (fun h => hnew1 x h) Or.inr⟩

theorem dfsVisit_enough (g : GraphState) (U : List Nat)
    (hcl : ∀ u ∈ U, ∀ w ∈ g.adj u, w ∈ U) :
    ∀ (fuel : Nat) (v : Nat) (s : List Nat × List Nat),
      v ∈ U → v ∉ s.1 →
      (U.filter (fun x => x ∉ s.1)).length ≤ fuel →
      ∃ s', dfsVisit g fuel v s = some s' ∧
        (∀ x ∈ s.1, x ∈ s'.1) ∧ (∀ x ∈ s'.1, x ∈ s.1 ∨ x ∈ U) := by
  intro fuel
  induction fuel with
  | zero =>
    intro v s hv hnv hcount
    exfalso
    have hmem : v ∈ U.filter (fun x => x ∉ s.1) :=
      List.mem_filter.mpr ⟨hv, by simpa using hnv⟩
    have := List.length_pos.mpr (List.ne_nil_of_mem hmem)
    omega
  | succ fuel ih =>
    intro v s hv hnv hcount
    simp only [dfsVisit]
    have hsub0 : ∀ x ∈ s.1, x ∈ setAdd s.1 v := fun x hx => mem_setAdd.mpr (Or.inl hx)
    have hvnew : v ∈ setAdd s.1 v := mem_setAdd.mpr (Or.inr rfl)
    have hcount1 : (U.filter (fun x => x ∉ setAdd s.1 v)).length ≤ fuel := by
      have := unvisited_strict U s.1 (setAdd s.1 v) v hsub0 hvnew hv hnv
      omega
    obtain ⟨s', hs', hsub, hnew⟩ := dfsList_enough g U fuel ih (g.adj v)
      (setAdd s.1 v, s.2 ++ [g.val v]) (fun n hn => hcl v hv n hn) hcount1
    refine ⟨s', hs', fun x hx => hsub x (hsub0 x hx), ?_⟩
    intro x hx
    rcases hnew x hx with h | h
    · rcases mem_setAdd.mp h with h' | rfl
      · exact Or.inl h'
      · exact Or.inr hv
    · exact Or.inr h

theorem dfsList_nodup (g : GraphState) (fuel : Nat)
    (ih : ∀ (v : Nat) (s s' : List Nat × List Nat), dfsVisit g fuel v s = some s' →
      v ∉ s.1 → s.1.Nodup →
      s'.1.Nodup ∧ s'.2.length + s.1.length = s.2.length + s'.1.length) :
    ∀ (l : List Nat) (s s' : List Nat × List Nat),
      dfsList Prod.fst (fun n t => dfsVisit g fuel n t) l s = some s' →
      s.1.Nodup →
      s'.1.Nodup ∧ s'.2.length + s.1.length = s.2.length + s'.1.length := by
  intro l
  induction l with
  | nil =>
    intro s s' h hnd
    cases h
    exact ⟨hnd, by omega⟩
  | cons n ns ihl =>
    intro s s' h hnd
    simp only [dfsList] at h
    by_cases hn : n ∈ s.1
    · rw [if_pos hn] at h
      exact ihl s s' h hnd
    · rw [if_neg hn] at h
      cases h1 : dfsVisit g fuel n s with
      | none =>
        rw [h1] at h
        cases h
      | some s1 =>
        rw [h1] at h
        obtain ⟨hnd1, heq1⟩ := ih n s s1 h1 hn hnd
        obtain ⟨hnd2, heq2⟩ := ihl s1 s' h hnd1
        exact ⟨hnd2, by omega⟩

theorem dfsVisit_nodup (g : GraphState) :
    ∀ (fuel v : Nat) (s s' : List Nat × List Nat),
      dfsVisit g fuel v s = some s' → v ∉ s.1 → s.1.Nodup →
      s'.1.Nodup ∧ s'.2.length + s.1.length = s.2.length + s'.1.length := by
  intro fuel
  induction fuel with
  | zero =>
    intro v s s' h
    cases h
  | succ fuel ih =>
    intro v s s' h hnv hnd
    simp only [dfsVisit] at h
    have hadd : setAdd s.1 v = s.1 ++ [v] := setAdd_of_not_mem hnv
    have hnd1 : (setAdd s.1 v).Nodup := by
      rw [hadd]
      simp [List.nodup_append, hnd, hnv]
    obtain ⟨hnd', heq⟩ := dfsList_nodup g fuel ih (g.adj v)
      (setAdd s.1 v, s.2 ++ [g.val v]) s' h hnd1
    refine ⟨hnd', ?_⟩
    have hlen1 : (setAdd s.1 v).length = s.1.length + 1 := by
      rw [hadd]
      simp
    have hlen2 : (s.2 ++ [g.val v]).length = s.2.length + 1 := by simp
    simp only [hlen1, hlen2] at heq
    omega

theorem bfsEnqueue_measure (U : List Nat) :
    ∀ (ns q vis : List Nat), (∀ n ∈ ns, n ∈ U) →
      (U.filter (fun x => x ∉ (bfsEnqueue ns q vis).2)).length +
          (bfsEnqueue ns q vis).1.length ≤
        (U.filter (fun x => x ∉ vis)).length + q.length := by
  intro ns
  induction ns with
  | nil =>
    intro q vis _
    exact le_refl _
  | cons n ns ih =>
    intro q vis hns
    simp only [bfsEnqueue]
    by_cases hn : n ∈ vis
    · simp only [hn, if_true]
      exact ih q vis (fun m hm => hns m (List.mem_cons_of_mem n hm))
    · simp only [hn, if_false]
      refine le_trans (ih (q ++ [n]) (setAdd vis n)
        (fun m hm => hns m (List.mem_cons_of_mem n hm))) ?_
      have hstrict := unvisited_strict U vis (setAdd vis n) n
        (fun x hx => mem_setAdd.mpr (Or.inl hx)) (mem_setAdd.mpr (Or.inr rfl))
        (hns n (List.mem_cons_self n ns)) hn
      simp only [List.length_append, List.length_singleton]
      omega

theorem bfsLoop_enough (g : GraphState) (U : List Nat)
    (hcl : ∀ u ∈ U, ∀ w ∈ g.adj u, w ∈ U) :
    ∀ (fuel : Nat) (q vis res : List Nat),
      (∀ n ∈ q, n ∈ U) →
      (U.filter (fun x => x ∉ vis)).length + q.length ≤ fuel →
      ∃ r, bfsLoop g fuel q vis res = some r ∧
        r.length ≤ res.length + (U.filter (fun x => x ∉ vis)).length + q.length := by
  intro fuel
  induction fuel with
  | zero =>
    intro q vis res hq hm
    cases q with
    | nil => exact ⟨res, rfl, by simp⟩
    | cons v q' =>
      exfalso
      simp [List.length_cons] at hm
  | succ fuel ih =>
    intro q vis res hq hm
    cases q with
    | nil => exact ⟨res, rfl, by simp⟩
    | cons v q' =>
      simp only [bfsLoop]
      have hvU : v ∈ U := hq v (List.mem_cons_self v q')
      have hnb : ∀ n ∈ g.adj v, n ∈ U := fun n hn => hcl v hvU n hn
      have hmeas := bfsEnqueue_measure U (g.adj v) q' vis hnb
      have hqU : ∀ n ∈ (bfsEnqueue (g.adj v) q' vis).1, n ∈ U := by
        intro n hn
        rcases bfsEnqueue_queue_sub (g.adj v) q' vis n hn with h | h
        · exact hq n (List.mem_cons_of_mem v h)
        · exact hnb n h
      obtain ⟨r, hr, hlen⟩ := ih (bfsEnqueue (g.adj v) q' vis).1
        (bfsEnqueue (g.adj v) q' vis).2 (res ++ [g.val v]) hqU
        (by simp only [List.length_cons] at hm; omega)
      refine ⟨r, hr, ?_⟩
      simp only [List.length_append, List.length_cons, List.length_nil] at hlen ⊢
      omega

/-- C8: on a finite graph (a finite universe U of vertex ids containing
the start vertex and closed under adjacency, cyclic or not), both
traversals complete within U.length + 1 nested calls resp. loop
iterations and return a result; the result records each vertex at most
once (DFS checks the visited set before recursing, BFS marks on enqueue),
so its length is at most U.length. -/
theorem traversals_terminate (g : GraphState) (U : List Nat) (v : Nat)
    (hcl : ∀ u ∈ U, ∀ w ∈ g.adj u, w ∈ U) (hv : v ∈ U) :
    (∃ r, depthFirstSearch g (U.length + 1) (some v) = some r ∧
      r.length ≤ U.length) ∧
    (∃ r, breadthFirstSearch g (U.length + 1) (some v) = Except.ok (some r) ∧
      r.length ≤ U.length) := by
  constructor
  · have hcount0 : (U.filter (fun x => x ∉ ([] : List Nat))).length ≤ U.length + 1 :=
      le_trans (List.length_filter_le _ _) (Nat.le_succ _)
    obtain ⟨s', hs', hsub, hnew⟩ := dfsVisit_enough g U hcl (U.length + 1) v ([], [])
      hv (by simp) hcount0
    obtain ⟨hnd, heq⟩ := dfsVisit_nodup g (U.length + 1) v ([], []) s' hs'
      (by simp) (by simp)
    refine ⟨s'.2, by simp [depthFirstSearch, hs'], ?_⟩
    have hsubU : ∀ x ∈ s'.1, x ∈ U := by
      intro x hx
      rcases hnew x hx with h | h
      · cases h
      · exact h
    have hlen : s'.1.length ≤ U.length := by
      have h1 : s'.1.toFinset.card = s'.1.length := List.toFinset_card_of_nodup hnd
      have h2 : s'.1.toFinset ⊆ U.toFinset := by
        intro x hx
        rw [List.mem_toFinset] at hx ⊢
        exact hsubU x hx
      calc s'.1.length = s'.1.toFinset.card := h1.symm
        _ ≤ U.toFinset.card := Finset.card_le_card h2
        _ ≤ U.length := List.toFinset_card_le U
    simp only [List.length_nil] at heq
    omega
  · have hfull : (U.filter (fun x => x ∉ ([] : List Nat))).length = U.length := by
      rw [List.filter_eq_self.mpr (fun a _ => by simp)]
    have hone : (U.filter (fun x => x ∉ [v])).length + 1 ≤ U.length := by
      have := unvisited_strict U [] [v] v (by simp) (by simp) hv (by simp)
      omega
    obtain ⟨r, hr, hlen⟩ := bfsLoop_enough g U hcl (U.length + 1) [v] [v] []
      (by intro n hn; rw [List.mem_singleton.mp hn]; exact hv)
      (by simp only [List.length_cons, List.length_nil]; omega)
    refine ⟨r, by simp [breadthFirstSearch, hr], ?_⟩
    simp only [List.length_cons, List.length_nil] at hlen
    omega

/-- Witness for C8 at concrete inputs. -/
theorem traversals_terminate_witness :
    (∃ r, depthFirstSearch gABC ([0, 1, 2].length + 1) (some 0) = some r ∧
      r.length ≤ [0, 1, 2].length) ∧
    (∃ r, breadthFirstSearch gABC ([0, 1, 2].length + 1) (some 0) = Except.ok (some r) ∧
      r.length ≤ [0, 1, 2].length) :=
  traversals_terminate gABC [0, 1, 2] 0 (by decide) (by decide)

-- The heap-threading traversals return the heap unchanged and compute the
-- same results as the plain ones.

theorem dfsListS_eq (g : GraphState) (fuel : Nat)
    (ih : ∀ (v : Nat) (vis res : List Nat),
      dfsVisitS fuel v (g, vis, res) =
        (dfsVisit g fuel v (vis, res)).map (fun p => (g, p.1, p.2))) :
    ∀ (l : List Nat) (vis res : List Nat),
      dfsList (fun t => t.2.1) (fun n t => dfsVisitS fuel n t) l (g, vis, res) =
        (dfsList Prod.fst (fun n t => dfsVisit g fuel n t) l (vis, res)).map
          (fun p => (g, p.1, p.2)) := by
  intro l
  induction l with
  | nil =>
    intro vis res
    rfl
  | cons n ns ihl =>
    intro vis res
    simp only [dfsList]
    by_cases hn : n ∈ vis
    · rw [if_pos hn, if_pos hn]
      exact ihl vis res
    · rw [if_neg hn, if_neg hn]
      rw [ih n vis res]
      cases h : dfsVisit g fuel n (vis, res) with
      | none => rfl
      | some p =>
        simp only [Option.map_some']
        exact ihl p.1 p.2

theorem dfsVisitS_eq (g : GraphState) :
    ∀ (fuel v : Nat) (vis res : List Nat),
      dfsVisitS fuel v (g, vis, res) =
        (dfsVisit g fuel v (vis, res)).map (fun p => (g, p.1, p.2)) := by
  intro fuel
  induction fuel with
  | zero =>
    intro v vis res
    rfl
  | succ fuel ih =>
    intro v vis res
    simp only [dfsVisitS, dfsVisit]
    exact dfsListS_eq g fuel ih (g.adj v) (setAdd vis v) (res ++ [g.val v])

theorem bfsLoopS_eq (g : GraphState) :
    ∀ (fuel : Nat) (q vis res : List Nat),
      bfsLoopS fuel (g, q, vis, res) =
        (bfsLoop g fuel q vis res).map (fun r => (g, r)) := by
  intro fuel
  induction fuel with
  | zero =>
    intro q vis res
    cases q with
    | nil => rfl
    | cons v q' => rfl
  | succ fuel ih =>
    intro q vis res
    cases q with
    | nil => rfl
    | cons v q' =>
      simp only [bfsLoopS, bfsLoop]
      exact ih _ _ _

/-- C10: both traversals are read-only at the graph interface: the
heap-threading embeddings, which carry the object heap through every step
of the traversal, return the heap they were given unchanged, together with
exactly the result the plain (reader) embeddings compute; only the
returned sequence and the visited/queue bookkeeping are produced. -/
theorem traversals_preserve_graph :
    (∀ (g : GraphState) (fuel : Nat) (start : Option Nat) (g' : GraphState)
        (r : List Nat),
      depthFirstSearchS g fuel start = some (g', r) →
      g' = g ∧ depthFirstSearch g fuel start = some r) ∧
    (∀ (g : GraphState) (fuel : Nat) (start : Option Nat) (g' : GraphState)
        (r : List Nat),
      breadthFirstSearchS g fuel start = Except.ok (some (g', r)) →
      g' = g ∧ breadthFirstSearch g fuel start = Except.ok (some r)) := by
  constructor
  · intro g fuel start g' r h
    cases start with
    | none =>
      simp only [depthFirstSearchS, Option.some.injEq, Prod.mk.injEq] at h
      exact ⟨h.1.symm, by simp [depthFirstSearch, ← h.2]⟩
    | some v =>
      simp only [depthFirstSearchS, dfsVisitS_eq g fuel v [] []] at h
      cases hd : dfsVisit g fuel v ([], []) with
      | none =>
        rw [hd] at h
        cases h
      | some p =>
        rw [hd] at h
        simp only [Option.map_some', Option.some.injEq, Prod.mk.injEq] at h
        refine ⟨h.1.symm, ?_⟩
        simp only [depthFirstSearch, hd, Option.map_some', Option.some.injEq]
        exact h.2
  · intro g fuel start g' r h
    cases start with
    | none => cases h
    | some v =>
      simp only [breadthFirstSearchS, bfsLoopS_eq g fuel [v] [v] [],
        Except.ok.injEq] at h
      cases hd : bfsLoop g fuel [v] [v] [] with
      | none =>
        rw [hd] at h
        cases h
      | some r0 =>
        rw [hd] at h
        simp only [Option.map_some', Option.some.injEq, Prod.mk.injEq] at h
        refine ⟨h.1.symm, ?_⟩
        simp only [breadthFirstSearch, hd, h.2]

/-- Witness for C10 at concrete inputs. -/
theorem traversals_preserve_graph_witness :
    (gABC = gABC ∧ depthFirstSearch gABC 10 (some 0) = some [1, 2, 3]) ∧
    (gABC = gABC ∧ breadthFirstSearch gABC 10 (some 0) = Except.ok (some [1, 2, 3])) :=
  ⟨traversals_preserve_graph.1 gABC 10 (some 0) gABC [1, 2, 3] rfl,
   traversals_preserve_graph.2 gABC 10 (some 0) gABC [1, 2, 3] rfl⟩
